import Mathlib

/-!
Shallow embedding of the tylar type-level arithmetic engine (src/src/lib.rs).

The Rust crate encodes signed integers as the zero-sized types `Zero`,
`Succ<N>` and `Pred<N>`, and each arithmetic operation as a trait whose
associated type `Out` is computed by trait resolution.  Trait resolution is
partial: a combination of operand types for which no impl's constraints are
satisfiable has no `Out`.  We embed:

* the three type constructors as an inductive type `Numeral`;
* the marker traits `PosType` / `NegType` as the Boolean predicates
  `isPos` / `isNeg` (an impl constraint `A : PosType<A>` becomes a guard
  `isPos a`);
* each operation trait as an `Option`-returning function, where `none`
  means "no impl applies / trait resolution fails";
* the `Into<i64>` conversion as `toInteger : Numeral → Int`;
* the `Div` trait with an explicit fuel parameter (`divF`), because its
  recursion does not structurally decrease and, on some inputs, trait
  resolution recurses forever; `DivDefined a b` says some finite fuel
  suffices, i.e. resolution terminates with a result.
-/

set_option autoImplicit false

namespace Tylar

/-- The numeral representation: Rust types `Zero`, `Succ<N>`, `Pred<N>`. -/
inductive Numeral : Type where
  | Zero : Numeral
  | Succ : Numeral → Numeral
  | Pred : Numeral → Numeral
deriving DecidableEq, Repr

open Numeral

/-- Embeds the marker trait `PosType` (impls: `Zero`, and `Succ<N>` for `N : PosType`). -/
def isPos : Numeral → Bool
  | .Zero => true
  | .Succ n => isPos n
  | .Pred _ => false

/-- Embeds the marker trait `NegType` (impls: `Zero`, and `Pred<N>` for `N : NegType`). -/
def isNeg : Numeral → Bool
  | .Zero => true
  | .Succ _ => false
  | .Pred n => isNeg n

/-- Embeds the `Into<i64>` impls: `Zero → 0`, `Succ<N> → N + 1`, `Pred<N> → N - 1`. -/
def toInteger : Numeral → Int
  | .Zero => 0
  | .Succ n => toInteger n + 1
  | .Pred n => toInteger n - 1

/-- A numeral is well formed when it is a pure `Succ` chain or a pure `Pred`
chain over `Zero`, i.e. when one of the marker traits holds for it. -/
def WF (n : Numeral) : Prop := isPos n = true ∨ isNeg n = true

instance (n : Numeral) : Decidable (WF n) :=
  inferInstanceAs (Decidable (_ ∨ _))

/-- Embeds the trait `Neg`.  The `Succ<A>` impl requires `A : PosType` and the
recursive result to be a `NegType`; symmetrically for `Pred<A>`. -/
def neg : Numeral → Option Numeral
  | .Zero => some .Zero
  | .Succ a =>
    if isPos a then
      (neg a).bind fun b => if isNeg b then some (.Pred b) else none
    else none
  | .Pred a =>
    if isNeg a then
      (neg a).bind fun b => if isPos b then some (.Succ b) else none
    else none

/-- Embeds the trait `Incr`: `Zero → Succ<Zero>`; `Succ<A> → Succ<Succ<A>>`
for `A : PosType`; `Pred<A> → A` for `A : NegType` (the cancellation case). -/
def incr : Numeral → Option Numeral
  | .Zero => some (.Succ .Zero)
  | .Succ a => if isPos a then some (.Succ (.Succ a)) else none
  | .Pred a => if isNeg a then some a else none

/-- Embeds the trait `Decr`: `Zero → Pred<Zero>`; `Succ<A> → A` for
`A : PosType` (cancellation); `Pred<A> → Pred<Pred<A>>` for `A : NegType`. -/
def decr : Numeral → Option Numeral
  | .Zero => some (.Pred .Zero)
  | .Succ a => if isPos a then some a else none
  | .Pred a => if isNeg a then some (.Pred (.Pred a)) else none

/-- Embeds the trait `Add`: `Add<Zero,B> = B` (no constraint on `B`);
`Add<Succ<A>,B> = Add<A, Incr<B>>` for `A : PosType`;
`Add<Pred<A>,B> = Add<A, Decr<B>>` for `A : NegType`. -/
def add : Numeral → Numeral → Option Numeral
  | .Zero, b => some b
  | .Succ a, b => if isPos a then (incr b).bind fun c => add a c else none
  | .Pred a, b => if isNeg a then (decr b).bind fun c => add a c else none

/-- Embeds the trait `Sub`: `Sub<A,B> = Add<A, Neg<B>>` (purely compositional). -/
def sub (a b : Numeral) : Option Numeral :=
  (neg b).bind fun c => add a c

/-- Embeds the trait `Halve`: `Zero → Zero`; `Succ<Succ<A>> → Succ<Halve<A>>`
for `A : PosType`; `Pred<Pred<A>> → Pred<Halve<A>>` for `A : NegType`; no
impl matches any other shape. -/
def halve : Numeral → Option Numeral
  | .Zero => some .Zero
  | .Succ (.Succ a) => if isPos a then (halve a).map .Succ else none
  | .Pred (.Pred a) => if isNeg a then (halve a).map .Pred else none
  | _ => none

/-- Embeds the trait `Mul`: `Mul<Zero,B> = Zero`;
`Mul<Succ<A>,B> = Add<B, Mul<A,B>>` for `A : PosType`;
`Mul<Pred<A>,B> = Add<Neg<B>, Mul<A,B>>` for `A : NegType`. -/
def mul : Numeral → Numeral → Option Numeral
  | .Zero, _ => some .Zero
  | .Succ a, b => if isPos a then (mul a b).bind fun c => add b c else none
  | .Pred a, b =>
    if isNeg a then
      (mul a b).bind fun c => (neg b).bind fun nb => add nb c
    else none

/-- Embeds the trait `Div`, with fuel counting trait-resolution depth.  The
five impls (lib.rs lines 156-164):
`Div<Zero,Succ<A>> = Zero` for `A : PosType`;
`Div<Zero,Pred<A>> = Zero` for `A : NegType`;
`Div<Succ<A>,Succ<B>> = Succ<Div<Sub<A,B>, Succ<B>>>`;
`Div<Pred<N>,Pred<NN>> = Div<Succ<Neg<N>>, Succ<Neg<NN>>>` for
`N NN : NegType` with `Neg<N> Neg<NN> : PosType`;
`Div<Succ<P>,Pred<N>>` and `Div<Pred<N>,Succ<P>>` require the inner positive
division to produce a `Succ<_>`-shaped quotient, which is then negated.
No impl has divisor `Zero`. -/
def divF : Nat → Numeral → Numeral → Option Numeral
  | 0, _, _ => none
  | _ + 1, .Zero, .Succ a => if isPos a then some .Zero else none
  | _ + 1, .Zero, .Pred a => if isNeg a then some .Zero else none
  | k + 1, .Succ a, .Succ b =>
    (sub a b).bind fun c => (divF k c (.Succ b)).map .Succ
  | k + 1, .Pred n, .Pred nn =>
    if isNeg n then
      if isNeg nn then
        (neg n).bind fun p =>
          (neg nn).bind fun pp =>
            if isPos p then
              if isPos pp then divF k (.Succ p) (.Succ pp) else none
            else none
      else none
    else none
  | k + 1, .Succ p, .Pred n =>
    if isNeg n then
      (neg n).bind fun pp =>
        match divF k (.Succ p) (.Succ pp) with
        | some (.Succ ppp) => neg (.Succ ppp)
        | _ => none
    else none
  | k + 1, .Pred n, .Succ p =>
    if isNeg n then
      (neg n).bind fun pp =>
        match divF k (.Succ pp) (.Succ p) with
        | some (.Succ ppp) => neg (.Succ ppp)
        | _ => none
    else none
  | _ + 1, _, .Zero => none

/-- Trait resolution for `Div<A,B>` succeeds: some finite resolution depth
yields a quotient. -/
def DivDefined (a b : Numeral) : Prop := ∃ k c, divF k a b = some c

/-- Shorthand `P1` from lib.rs. -/
def P1 : Numeral := .Succ .Zero
/-- Shorthand `P2` from lib.rs. -/
def P2 : Numeral := .Succ P1
/-- Shorthand `P3` from lib.rs. -/
def P3 : Numeral := .Succ P2
/-- Shorthand `P4` from lib.rs. -/
def P4 : Numeral := .Succ P3
/-- Shorthand `P5` from lib.rs. -/
def P5 : Numeral := .Succ P4
/-- Shorthand `N1` from lib.rs. -/
def N1 : Numeral := .Pred .Zero
/-- Shorthand `N2` from lib.rs. -/
def N2 : Numeral := .Pred N1
/-- Shorthand `N3` from lib.rs. -/
def N3 : Numeral := .Pred N2
/-- Shorthand `N4` from lib.rs. -/
def N4 : Numeral := .Pred N3

/-! ### Structural lemmas about sign predicates and `toInteger` -/

theorem isPos_nonneg : ∀ n, isPos n = true → 0 ≤ toInteger n := by
  intro n h
  induction n with
  | Zero => simp [toInteger]
  | Succ m ih =>
    simp only [isPos] at h
    have := ih h
    simp only [toInteger]
    omega
  | Pred m ih => simp [isPos] at h

theorem isNeg_nonpos : ∀ n, isNeg n = true → toInteger n ≤ 0 := by
  intro n h
  induction n with
  | Zero => simp [toInteger]
  | Succ m ih => simp [isNeg] at h
  | Pred m ih =>
    simp only [isNeg] at h
    have := ih h
    simp only [toInteger]
    omega

theorem isPos_eq_zero : ∀ n, isPos n = true → toInteger n = 0 → n = .Zero := by
  intro n hp h0
  cases n with
  | Zero => rfl
  | Succ m =>
    simp only [isPos] at hp
    have := isPos_nonneg m hp
    simp only [toInteger] at h0
    omega
  | Pred m => simp [isPos] at hp

theorem isNeg_eq_zero : ∀ n, isNeg n = true → toInteger n = 0 → n = .Zero := by
  intro n hn h0
  cases n with
  | Zero => rfl
  | Succ m => simp [isNeg] at hn
  | Pred m =>
    simp only [isNeg] at hn
    have := isNeg_nonpos m hn
    simp only [toInteger] at h0
    omega

theorem isPos_of_wf_nonneg {n : Numeral} (hwf : WF n) (h : 0 ≤ toInteger n) :
    isPos n = true := by
  rcases hwf with hp | hn
  · exact hp
  · have h0 : toInteger n = 0 := le_antisymm (isNeg_nonpos n hn) h
    rw [isNeg_eq_zero n hn h0]
    rfl

theorem isNeg_of_wf_nonpos {n : Numeral} (hwf : WF n) (h : toInteger n ≤ 0) :
    isNeg n = true := by
  rcases hwf with hp | hn
  · have h0 : toInteger n = 0 := le_antisymm h (isPos_nonneg n hp)
    rw [isPos_eq_zero n hp h0]
    rfl
  · exact hn

theorem isPos_succ_shape {n : Numeral} (hp : isPos n = true) (h : 0 < toInteger n) :
    ∃ m, n = .Succ m ∧ isPos m = true := by
  cases n with
  | Zero => simp [toInteger] at h
  | Succ m => exact ⟨m, rfl, hp⟩
  | Pred m => simp [isPos] at hp

theorem isNeg_pred_shape {n : Numeral} (hn : isNeg n = true) (h : toInteger n < 0) :
    ∃ m, n = .Pred m ∧ isNeg m = true := by
  cases n with
  | Zero => simp [toInteger] at h
  | Succ m => simp [isNeg] at hn
  | Pred m => exact ⟨m, rfl, hn⟩

theorem wf_of_isPos {n : Numeral} (h : isPos n = true) : WF n := Or.inl h

theorem wf_of_isNeg {n : Numeral} (h : isNeg n = true) : WF n := Or.inr h

theorem wf_succ {n : Numeral} (h : WF (.Succ n)) : isPos n = true := by
  rcases h with hp | hn
  · exact hp
  · simp [isNeg] at hn

theorem wf_pred {n : Numeral} (h : WF (.Pred n)) : isNeg n = true := by
  rcases h with hp | hn
  · simp [isPos] at hp
  · exact hn

/-! ### Negation -/

theorem neg_pos : ∀ n, isPos n = true →
    ∃ m, neg n = some m ∧ isNeg m = true ∧ toInteger m = -toInteger n := by
  intro n hp
  induction n with
  | Zero => exact ⟨.Zero, rfl, rfl, by simp [toInteger]⟩
  | Succ a ih =>
    simp only [isPos] at hp
    obtain ⟨m, hm, hmneg, hmval⟩ := ih hp
    refine ⟨.Pred m, ?_, hmneg, ?_⟩
    · simp [neg, hp, hm, hmneg]
    · simp only [toInteger, hmval]
      ring
  | Pred a ih => simp [isPos] at hp

theorem neg_negative : ∀ n, isNeg n = true →
    ∃ m, neg n = some m ∧ isPos m = true ∧ toInteger m = -toInteger n := by
  intro n hn
  induction n with
  | Zero => exact ⟨.Zero, rfl, rfl, by simp [toInteger]⟩
  | Succ a ih => simp [isNeg] at hn
  | Pred a ih =>
    simp only [isNeg] at hn
    obtain ⟨m, hm, hmpos, hmval⟩ := ih hn
    refine ⟨.Succ m, ?_, hmpos, ?_⟩
    · simp [neg, hn, hm, hmpos]
    · simp only [toInteger, hmval]
      ring

theorem neg_wf {n : Numeral} (h : WF n) :
    ∃ m, neg n = some m ∧ WF m ∧ toInteger m = -toInteger n := by
  rcases h with hp | hn
  · obtain ⟨m, hm, h1, h2⟩ := neg_pos n hp
    exact ⟨m, hm, Or.inr h1, h2⟩
  · obtain ⟨m, hm, h1, h2⟩ := neg_negative n hn
    exact ⟨m, hm, Or.inl h1, h2⟩

theorem neg_some : ∀ n m, neg n = some m → WF m ∧ toInteger m = -toInteger n := by
  intro n
  induction n with
  | Zero =>
    intro m h
    simp only [neg, Option.some.injEq] at h
    subst h
    exact ⟨Or.inl rfl, by simp [toInteger]⟩
  | Succ a ih =>
    intro m h
    simp only [neg] at h
    by_cases hp : isPos a = true
    · simp only [hp, if_true, Option.bind_eq_some] at h
      obtain ⟨b, hb, h2⟩ := h
      by_cases hbn : isNeg b = true
      · simp only [hbn, if_true, Option.some.injEq] at h2
        subst h2
        obtain ⟨_, hbval⟩ := ih b hb
        refine ⟨Or.inr hbn, ?_⟩
        simp only [toInteger, hbval]
        ring
      · simp [hbn] at h2
    · simp [hp] at h
  | Pred a ih =>
    intro m h
    simp only [neg] at h
    by_cases hn : isNeg a = true
    · simp only [hn, if_true, Option.bind_eq_some] at h
      obtain ⟨b, hb, h2⟩ := h
      by_cases hbp : isPos b = true
      · simp only [hbp, if_true, Option.some.injEq] at h2
        subst h2
        obtain ⟨_, hbval⟩ := ih b hb
        refine ⟨Or.inl hbp, ?_⟩
        simp only [toInteger, hbval]
        ring
      · simp [hbp] at h2
    · simp [hn] at h

/-! ### Increment and decrement -/

theorem incr_some : ∀ n m, incr n = some m → WF m ∧ toInteger m = toInteger n + 1 := by
  intro n m h
  cases n with
  | Zero =>
    simp only [incr, Option.some.injEq] at h
    subst h
    exact ⟨Or.inl rfl, by simp [toInteger]⟩
  | Succ a =>
    simp only [incr] at h
    by_cases hp : isPos a = true
    · simp only [hp, if_true, Option.some.injEq] at h
      subst h
      exact ⟨Or.inl hp, rfl⟩
    · simp [hp] at h
  | Pred a =>
    simp only [incr] at h
    by_cases hn : isNeg a = true
    · simp only [hn, if_true, Option.some.injEq] at h
      subst h
      exact ⟨Or.inr hn, by simp only [toInteger]; ring⟩
    · simp [hn] at h

theorem decr_some : ∀ n m, decr n = some m → WF m ∧ toInteger m = toInteger n - 1 := by
  intro n m h
  cases n with
  | Zero =>
    simp only [decr, Option.some.injEq] at h
    subst h
    exact ⟨Or.inr rfl, by simp [toInteger]⟩
  | Succ a =>
    simp only [decr] at h
    by_cases hp : isPos a = true
    · simp only [hp, if_true, Option.some.injEq] at h
      subst h
      exact ⟨Or.inl hp, by simp only [toInteger]; ring⟩
    · simp [hp] at h
  | Pred a =>
    simp only [decr] at h
    by_cases hn : isNeg a = true
    · simp only [hn, if_true, Option.some.injEq] at h
      subst h
      exact ⟨Or.inr hn, rfl⟩
    · simp [hn] at h

theorem incr_defined {n : Numeral} (h : WF n) : ∃ m, incr n = some m := by
  cases n with
  | Zero => exact ⟨.Succ .Zero, rfl⟩
  | Succ a => exact ⟨.Succ (.Succ a), by simp [incr, wf_succ h]⟩
  | Pred a => exact ⟨a, by simp [incr, wf_pred h]⟩

theorem decr_defined {n : Numeral} (h : WF n) : ∃ m, decr n = some m := by
  cases n with
  | Zero => exact ⟨.Pred .Zero, rfl⟩
  | Succ a => exact ⟨a, by simp [decr, wf_succ h]⟩
  | Pred a => exact ⟨.Pred (.Pred a), by simp [decr, wf_pred h]⟩

/-! ### Addition and subtraction -/

theorem add_some : ∀ a b c, add a b = some c → toInteger c = toInteger a + toInteger b := by
  intro a
  induction a with
  | Zero =>
    intro b c h
    simp only [add, Option.some.injEq] at h
    subst h
    simp [toInteger]
  | Succ a ih =>
    intro b c h
    simp only [add] at h
    by_cases hp : isPos a = true
    · simp only [hp, if_true, Option.bind_eq_some] at h
      obtain ⟨m, hm, h2⟩ := h
      have hmval := (incr_some b m hm).2
      have := ih m c h2
      simp only [toInteger]
      omega
    · simp [hp] at h
  | Pred a ih =>
    intro b c h
    simp only [add] at h
    by_cases hn : isNeg a = true
    · simp only [hn, if_true, Option.bind_eq_some] at h
      obtain ⟨m, hm, h2⟩ := h
      have hmval := (decr_some b m hm).2
      have := ih m c h2
      simp only [toInteger]
      omega
    · simp [hn] at h

theorem add_some_wf : ∀ a b c, add a b = some c → WF b → WF c := by
  intro a
  induction a with
  | Zero =>
    intro b c h hb
    simp only [add, Option.some.injEq] at h
    subst h
    exact hb
  | Succ a ih =>
    intro b c h _
    simp only [add] at h
    by_cases hp : isPos a = true
    · simp only [hp, if_true, Option.bind_eq_some] at h
      obtain ⟨m, hm, h2⟩ := h
      exact ih m c h2 (incr_some b m hm).1
    · simp [hp] at h
  | Pred a ih =>
    intro b c h _
    simp only [add] at h
    by_cases hn : isNeg a = true
    · simp only [hn, if_true, Option.bind_eq_some] at h
      obtain ⟨m, hm, h2⟩ := h
      exact ih m c h2 (decr_some b m hm).1
    · simp [hn] at h

theorem add_wf : ∀ a b, WF a → WF b →
    ∃ c, add a b = some c ∧ WF c ∧ toInteger c = toInteger a + toInteger b := by
  intro a
  induction a with
  | Zero =>
    intro b _ hb
    exact ⟨b, rfl, hb, by simp [toInteger]⟩
  | Succ a ih =>
    intro b ha hb
    have hp := wf_succ ha
    obtain ⟨m, hm⟩ := incr_defined hb
    obtain ⟨hmwf, hmval⟩ := incr_some b m hm
    obtain ⟨c, hc, hcwf, hcval⟩ := ih m (wf_of_isPos hp) hmwf
    refine ⟨c, ?_, hcwf, ?_⟩
    · simp [add, hp, hm, hc]
    · simp only [toInteger]
      omega
  | Pred a ih =>
    intro b ha hb
    have hn := wf_pred ha
    obtain ⟨m, hm⟩ := decr_defined hb
    obtain ⟨hmwf, hmval⟩ := decr_some b m hm
    obtain ⟨c, hc, hcwf, hcval⟩ := ih m (wf_of_isNeg hn) hmwf
    refine ⟨c, ?_, hcwf, ?_⟩
    · simp [add, hn, hm, hc]
    · simp only [toInteger]
      omega

theorem sub_some : ∀ a b c, sub a b = some c →
    WF c ∧ toInteger c = toInteger a - toInteger b := by
  intro a b c h
  simp only [sub, Option.bind_eq_some] at h
  obtain ⟨nb, hnb, hadd⟩ := h
  obtain ⟨hnbwf, hnbval⟩ := neg_some b nb hnb
  refine ⟨add_some_wf a nb c hadd hnbwf, ?_⟩
  have := add_some a nb c hadd
  omega

theorem sub_wf : ∀ a b, WF a → WF b →
    ∃ c, sub a b = some c ∧ WF c ∧ toInteger c = toInteger a - toInteger b := by
  intro a b ha hb
  obtain ⟨nb, hnb, hnbwf, hnbval⟩ := neg_wf hb
  obtain ⟨c, hc, hcwf, hcval⟩ := add_wf a nb ha hnbwf
  refine ⟨c, ?_, hcwf, by omega⟩
  simp [sub, hnb, hc]

/-! ### Halving -/

theorem halve_none_residual : ∀ t : Numeral, (t = .Zero → False) →
    (∀ a, t = .Succ (.Succ a) → False) → (∀ a, t = .Pred (.Pred a) → False) →
    halve t = none := by
  intro t h1 h2 h3
  cases t with
  | Zero => exact absurd rfl h1
  | Succ y =>
    cases y with
    | Zero => rfl
    | Succ z => exact absurd rfl (h2 z)
    | Pred z => rfl
  | Pred y =>
    cases y with
    | Zero => rfl
    | Succ z => rfl
    | Pred z => exact absurd rfl (h3 z)

theorem halve_some : ∀ n m, halve n = some m → WF m ∧ 2 * toInteger m = toInteger n := by
  intro n
  induction n using halve.induct with
  | case1 =>
    intro m h
    simp only [halve, Option.some.injEq] at h
    subst h
    exact ⟨Or.inl rfl, by simp [toInteger]⟩
  | case2 a hp ih =>
    intro m h
    simp only [halve, hp, if_true, Option.map_eq_some'] at h
    obtain ⟨y, hy, h2⟩ := h
    subst h2
    obtain ⟨hywf, hyval⟩ := ih y hy
    have hapos := isPos_nonneg a hp
    have hypos : isPos y = true := isPos_of_wf_nonneg hywf (by omega)
    exact ⟨Or.inl hypos, by simp only [toInteger]; omega⟩
  | case3 a hp =>
    intro m h
    simp [halve, hp] at h
  | case4 a hn ih =>
    intro m h
    simp only [halve, hn, if_true, Option.map_eq_some'] at h
    obtain ⟨y, hy, h2⟩ := h
    subst h2
    obtain ⟨hywf, hyval⟩ := ih y hy
    have haneg := isNeg_nonpos a hn
    have hyneg : isNeg y = true := isNeg_of_wf_nonpos hywf (by omega)
    exact ⟨Or.inr hyneg, by simp only [toInteger]; omega⟩
  | case5 a hn =>
    intro m h
    simp [halve, hn] at h
  | case6 t h1 h2 h3 =>
    intro m h
    rw [halve_none_residual t h1 h2 h3] at h
    exact absurd h (by simp)

theorem halve_even : ∀ n, WF n → 2 ∣ toInteger n →
    ∃ m, halve n = some m ∧ WF m ∧ 2 * toInteger m = toInteger n := by
  intro n
  induction n using halve.induct with
  | case1 =>
    intro _ _
    exact ⟨.Zero, rfl, Or.inl rfl, by simp [toInteger]⟩
  | case2 a hp ih =>
    intro hwf hdvd
    have hdvd' : 2 ∣ toInteger a := by
      simp only [toInteger] at hdvd
      omega
    obtain ⟨m, hm, hmwf, hmval⟩ := ih (wf_of_isPos hp) hdvd'
    refine ⟨.Succ m, ?_, ?_, ?_⟩
    · simp [halve, hp, hm]
    · have hapos := isPos_nonneg a hp
      have hmpos : isPos m = true := isPos_of_wf_nonneg hmwf (by omega)
      exact Or.inl hmpos
    · simp only [toInteger]
      omega
  | case3 a hp =>
    intro hwf _
    exact absurd (by simpa [isPos] using wf_succ hwf) hp
  | case4 a hn ih =>
    intro hwf hdvd
    have hdvd' : 2 ∣ toInteger a := by
      simp only [toInteger] at hdvd
      omega
    obtain ⟨m, hm, hmwf, hmval⟩ := ih (wf_of_isNeg hn) hdvd'
    refine ⟨.Pred m, ?_, ?_, ?_⟩
    · simp [halve, hn, hm]
    · have haneg := isNeg_nonpos a hn
      have hmneg : isNeg m = true := isNeg_of_wf_nonpos hmwf (by omega)
      exact Or.inr hmneg
    · simp only [toInteger]
      omega
  | case5 a hn =>
    intro hwf _
    exact absurd (by simpa [isNeg] using wf_pred hwf) hn
  | case6 t h1 h2 h3 =>
    intro hwf hdvd
    exfalso
    cases t with
    | Zero => exact h1 rfl
    | Succ y =>
      cases y with
      | Zero =>
        simp only [toInteger] at hdvd
        omega
      | Succ z => exact h2 z rfl
      | Pred z =>
        have := wf_succ hwf
        simp [isPos] at this
    | Pred y =>
      cases y with
      | Zero =>
        simp only [toInteger] at hdvd
        omega
      | Succ z =>
        have := wf_pred hwf
        simp [isNeg] at this
      | Pred z => exact h3 z rfl

theorem halve_odd : ∀ n, WF n → ¬ (2 ∣ toInteger n) → halve n = none := by
  intro n
  induction n using halve.induct with
  | case1 =>
    intro _ hdvd
    exact absurd (by simp [toInteger]) hdvd
  | case2 a hp ih =>
    intro hwf hdvd
    have hdvd' : ¬ (2 ∣ toInteger a) := by
      simp only [toInteger] at hdvd
      omega
    simp [halve, hp, ih (wf_of_isPos hp) hdvd']
  | case3 a hp =>
    intro hwf _
    exact absurd (by simpa [isPos] using wf_succ hwf) hp
  | case4 a hn ih =>
    intro hwf hdvd
    have hdvd' : ¬ (2 ∣ toInteger a) := by
      simp only [toInteger] at hdvd
      omega
    simp [halve, hn, ih (wf_of_isNeg hn) hdvd']
  | case5 a hn =>
    intro hwf _
    exact absurd (by simpa [isNeg] using wf_pred hwf) hn
  | case6 t h1 h2 h3 =>
    intro _ _
    exact halve_none_residual t h1 h2 h3

/-! ### Multiplication -/

theorem mul_some : ∀ a b c, mul a b = some c →
    WF c ∧ toInteger c = toInteger a * toInteger b := by
  intro a
  induction a with
  | Zero =>
    intro b c h
    simp only [mul, Option.some.injEq] at h
    subst h
    exact ⟨Or.inl rfl, by simp [toInteger]⟩
  | Succ a ih =>
    intro b c h
    simp only [mul] at h
    by_cases hp : isPos a = true
    · simp only [hp, if_true, Option.bind_eq_some] at h
      obtain ⟨m, hm, h2⟩ := h
      obtain ⟨hmwf, hmval⟩ := ih b m hm
      refine ⟨add_some_wf b m c h2 hmwf, ?_⟩
      have := add_some b m c h2
      simp only [toInteger]
      rw [this, hmval]
      ring
    · simp [hp] at h
  | Pred a ih =>
    intro b c h
    simp only [mul] at h
    by_cases hn : isNeg a = true
    · simp only [hn, if_true, Option.bind_eq_some] at h
      obtain ⟨m, hm, h2⟩ := h
      obtain ⟨nb, hnb, h3⟩ := h2
      obtain ⟨hmwf, hmval⟩ := ih b m hm
      obtain ⟨hnbwf, hnbval⟩ := neg_some b nb hnb
      refine ⟨add_some_wf nb m c h3 hmwf, ?_⟩
      have := add_some nb m c h3
      simp only [toInteger]
      rw [this, hmval, hnbval]
      ring
    · simp [hn] at h

theorem mul_wf : ∀ a b, WF a → WF b →
    ∃ c, mul a b = some c ∧ WF c ∧ toInteger c = toInteger a * toInteger b := by
  intro a
  induction a with
  | Zero =>
    intro b _ _
    exact ⟨.Zero, rfl, Or.inl rfl, by simp [toInteger]⟩
  | Succ a ih =>
    intro b ha hb
    have hp := wf_succ ha
    obtain ⟨m, hm, hmwf, hmval⟩ := ih b (wf_of_isPos hp) hb
    obtain ⟨c, hc, hcwf, hcval⟩ := add_wf b m hb hmwf
    refine ⟨c, ?_, hcwf, ?_⟩
    · simp [mul, hp, hm, hc]
    · simp only [toInteger]
      rw [hcval, hmval]
      ring
  | Pred a ih =>
    intro b ha hb
    have hn := wf_pred ha
    obtain ⟨m, hm, hmwf, hmval⟩ := ih b (wf_of_isNeg hn) hb
    obtain ⟨nb, hnb, hnbwf, hnbval⟩ := neg_wf hb
    obtain ⟨c, hc, hcwf, hcval⟩ := add_wf nb m hnbwf hmwf
    refine ⟨c, ?_, hcwf, ?_⟩
    · simp [mul, hn, hm, hnb, hc]
    · simp only [toInteger]
      rw [hcval, hmval, hnbval]
      ring

/-! ### Division: divisor `Zero` matches no impl -/

theorem divF_zero_divisor : ∀ k a, divF k a .Zero = none := by
  intro k a
  cases k with
  | zero => rfl
  | succ k => cases a <;> rfl

/-- Inversion for division: whenever trait resolution for `Div` succeeds on
well-formed operands, the quotient is well formed and exactly inverts the
divisor (so only exact divisions ever resolve). -/
theorem divF_some : ∀ k a b c, WF a → WF b → divF k a b = some c →
    WF c ∧ toInteger c * toInteger b = toInteger a := by
  intro k
  induction k with
  | zero =>
    intro a b c _ _ h
    simp [divF] at h
  | succ k ih =>
    intro a b c ha hb h
    cases a with
    | Zero =>
      cases b with
      | Zero => simp [divF] at h
      | Succ b' =>
        have hb' := wf_succ hb
        simp only [divF, hb', if_true, Option.some.injEq] at h
        subst h
        exact ⟨Or.inl rfl, by simp [toInteger]⟩
      | Pred b' =>
        have hb' := wf_pred hb
        simp only [divF, hb', if_true, Option.some.injEq] at h
        subst h
        exact ⟨Or.inl rfl, by simp [toInteger]⟩
    | Succ a' =>
      cases b with
      | Zero => simp [divF] at h
      | Succ b' =>
        have ha' := wf_succ ha
        have hb' := wf_succ hb
        simp only [divF, Option.bind_eq_some] at h
        obtain ⟨c₀, hc₀, h2⟩ := h
        rw [Option.map_eq_some'] at h2
        obtain ⟨q, hq, hqc⟩ := h2
        subst hqc
        obtain ⟨hc₀wf, hc₀val⟩ := sub_some a' b' c₀ hc₀
        obtain ⟨hqwf, hqval⟩ := ih c₀ (.Succ b') q hc₀wf hb hq
        have hA : 0 ≤ toInteger a' := isPos_nonneg a' ha'
        have hB : 0 ≤ toInteger b' := isPos_nonneg b' hb'
        have hqpos : isPos q = true := by
          by_contra hq'
          have hqneg : isNeg q = true := hqwf.resolve_left hq'
          have hqne : q ≠ .Zero := by
            intro hz
            subst hz
            exact hq' rfl
          have hqle : toInteger q ≤ -1 := by
            have h0 := isNeg_nonpos q hqneg
            rcases lt_or_eq_of_le h0 with h1 | h1
            · omega
            · exact absurd (isNeg_eq_zero q hqneg h1) hqne
          have hmul : toInteger q * toInteger (Numeral.Succ b') ≤
              -1 * toInteger (Numeral.Succ b') := by
            apply mul_le_mul_of_nonneg_right hqle
            simp only [toInteger]
            omega
          simp only [toInteger] at hqval hmul
          linarith
        refine ⟨Or.inl hqpos, ?_⟩
        have hdist : (toInteger q + 1) * (toInteger b' + 1) =
            toInteger q * (toInteger b' + 1) + (toInteger b' + 1) := by ring
        simp only [toInteger] at hqval ⊢
        linarith
      | Pred b' =>
        have hp := wf_succ ha
        have hn := wf_pred hb
        simp only [divF, hn, if_true, Option.bind_eq_some] at h
        obtain ⟨pp, hpp, h2⟩ := h
        obtain ⟨hppwf, hppval⟩ := neg_some b' pp hpp
        have hppos : isPos pp = true := by
          apply isPos_of_wf_nonneg hppwf
          have := isNeg_nonpos b' hn
          omega
        cases hd : divF k (.Succ a') (.Succ pp) with
        | none =>
          rw [hd] at h2
          simp at h2
        | some r =>
          cases r with
          | Zero =>
            rw [hd] at h2
            simp at h2
          | Pred m =>
            rw [hd] at h2
            simp at h2
          | Succ ppp =>
            rw [hd] at h2
            change neg (.Succ ppp) = some c at h2
            obtain ⟨hrwf, hrval⟩ := ih (.Succ a') (.Succ pp) (.Succ ppp) ha
              (Or.inl hppos) hd
            obtain ⟨hcwf, hcval⟩ := neg_some (.Succ ppp) c h2
            refine ⟨hcwf, ?_⟩
            simp only [toInteger] at hrval hcval hppval ⊢
            rw [hcval]
            rw [hppval] at hrval
            linear_combination hrval
    | Pred a' =>
      cases b with
      | Zero => simp [divF] at h
      | Succ b' =>
        have hn := wf_pred ha
        have hp := wf_succ hb
        simp only [divF, hn, if_true, Option.bind_eq_some] at h
        obtain ⟨pp, hpp, h2⟩ := h
        obtain ⟨hppwf, hppval⟩ := neg_some a' pp hpp
        have hppos : isPos pp = true := by
          apply isPos_of_wf_nonneg hppwf
          have := isNeg_nonpos a' hn
          omega
        cases hd : divF k (.Succ pp) (.Succ b') with
        | none =>
          rw [hd] at h2
          simp at h2
        | some r =>
          cases r with
          | Zero =>
            rw [hd] at h2
            simp at h2
          | Pred m =>
            rw [hd] at h2
            simp at h2
          | Succ ppp =>
            rw [hd] at h2
            change neg (.Succ ppp) = some c at h2
            obtain ⟨hrwf, hrval⟩ := ih (.Succ pp) (.Succ b') (.Succ ppp)
              (Or.inl hppos) hb hd
            obtain ⟨hcwf, hcval⟩ := neg_some (.Succ ppp) c h2
            refine ⟨hcwf, ?_⟩
            simp only [toInteger] at hrval hcval hppval ⊢
            rw [hcval]
            rw [hppval] at hrval
            linear_combination -hrval
      | Pred b' =>
        have hn := wf_pred ha
        have hnn := wf_pred hb
        simp only [divF, hn, hnn, if_true, Option.bind_eq_some] at h
        obtain ⟨p, hp, h2⟩ := h
        obtain ⟨pp, hpp, h3⟩ := h2
        obtain ⟨hpwf, hpval⟩ := neg_some a' p hp
        obtain ⟨hppwf, hppval⟩ := neg_some b' pp hpp
        have hppos : isPos p = true := by
          apply isPos_of_wf_nonneg hpwf
          have := isNeg_nonpos a' hn
          omega
        have hpppos : isPos pp = true := by
          apply isPos_of_wf_nonneg hppwf
          have := isNeg_nonpos b' hnn
          omega
        simp only [hppos, hpppos, if_true] at h3
        obtain ⟨hcwf, hcval⟩ := ih (.Succ p) (.Succ pp) c (Or.inl hppos)
          (Or.inl hpppos) h3
        refine ⟨hcwf, ?_⟩
        simp only [toInteger] at hcval hpval hppval ⊢
        rw [hpval, hppval] at hcval
        linear_combination -hcval

/-- Existence for the positive/positive division chain: when the dividend is
a nonnegative exact multiple of the (positive) divisor, some resolution depth
produces the exact quotient. -/
theorem div_pos_exact : ∀ (q : Nat) (a b : Numeral), isPos a = true → isPos b = true →
    toInteger a = (q : Int) * (toInteger b + 1) →
    ∃ k c, divF k a (.Succ b) = some c ∧ isPos c = true ∧ toInteger c = (q : Int) := by
  intro q
  induction q with
  | zero =>
    intro a b ha hb hval
    have ha0 : toInteger a = 0 := by
      rw [hval]
      ring
    rw [isPos_eq_zero a ha ha0]
    refine ⟨1, .Zero, ?_, rfl, rfl⟩
    simp [divF, hb]
  | succ q ih =>
    intro a b ha hb hval
    have hB : 0 ≤ toInteger b := isPos_nonneg b hb
    have hApos : 0 < toInteger a := by
      rw [hval]
      have h1 : (0 : Int) < (q : Int) + 1 := by positivity
      have h2 : (0 : Int) < toInteger b + 1 := by omega
      push_cast
      nlinarith
    obtain ⟨a', haeq, ha'⟩ := isPos_succ_shape ha hApos
    subst haeq
    obtain ⟨c₀, hsub, hc₀wf, hc₀val⟩ := sub_wf a' b (wf_of_isPos ha') (wf_of_isPos hb)
    have hc₀eq : toInteger c₀ = (q : Int) * (toInteger b + 1) := by
      simp only [toInteger] at hval
      push_cast at hval ⊢
      linarith [hval, hc₀val]
    have hc₀pos : isPos c₀ = true := by
      apply isPos_of_wf_nonneg hc₀wf
      rw [hc₀eq]
      positivity
    obtain ⟨k, c, hk, hcpos, hcval⟩ := ih c₀ b hc₀pos hb hc₀eq
    refine ⟨k + 1, .Succ c, ?_, hcpos, ?_⟩
    · simp [divF, hsub, hk]
    · simp only [toInteger, hcval]
      push_cast
      ring

/-- Existence for division on all sign combinations: a well-formed dividend
that is an exact multiple of a well-formed nonzero divisor resolves to the
exact quotient. -/
theorem div_exact : ∀ a b, WF a → WF b → toInteger b ≠ 0 → toInteger b ∣ toInteger a →
    ∃ k c, divF k a b = some c ∧ WF c ∧ toInteger c * toInteger b = toInteger a := by
  intro a b ha hb hbne hdvd
  suffices h : ∃ k c, divF k a b = some c by
    obtain ⟨k, c, hk⟩ := h
    obtain ⟨hcwf, hcval⟩ := divF_some k a b c ha hb hk
    exact ⟨k, c, hk, hcwf, hcval⟩
  obtain ⟨q, hq⟩ := hdvd
  cases b with
  | Zero => exact absurd rfl hbne
  | Succ b' =>
    have hb' := wf_succ hb
    have hB : 0 ≤ toInteger b' := isPos_nonneg b' hb'
    simp only [toInteger] at hq
    cases a with
    | Zero =>
      exact ⟨1, .Zero, by simp [divF, hb']⟩
    | Succ a' =>
      have ha' := wf_succ ha
      have hA : 0 ≤ toInteger a' := isPos_nonneg a' ha'
      simp only [toInteger] at hq
      have hqpos : 0 ≤ q := by
        by_contra h'
        push_neg at h'
        have h1 : (toInteger b' + 1) * q ≤ (toInteger b' + 1) * 0 :=
          mul_le_mul_of_nonneg_left (by omega) (by omega)
        rw [mul_zero] at h1
        linarith
      have hqn : ((q.toNat : Int)) = q := Int.toNat_of_nonneg hqpos
      have hval : toInteger (Numeral.Succ a') = (q.toNat : Int) * (toInteger b' + 1) := by
        simp only [toInteger]
        rw [hqn]
        linear_combination hq
      obtain ⟨k, c, hk, _, _⟩ := div_pos_exact q.toNat (.Succ a') b' ha' hb' hval
      exact ⟨k, c, hk⟩
    | Pred n =>
      have hn := wf_pred ha
      have hA : toInteger n ≤ 0 := isNeg_nonpos n hn
      simp only [toInteger] at hq
      have hqneg : q ≤ -1 := by
        by_contra h'
        push_neg at h'
        have h1 : (toInteger b' + 1) * 0 ≤ (toInteger b' + 1) * q :=
          mul_le_mul_of_nonneg_left (by omega) (by omega)
        rw [mul_zero] at h1
        linarith
      obtain ⟨p, hp, hppos, hpval⟩ := neg_negative n hn
      have hqn : (((-q).toNat : Int)) = -q := Int.toNat_of_nonneg (by omega)
      have hval : toInteger (Numeral.Succ p) = ((-q).toNat : Int) * (toInteger b' + 1) := by
        simp only [toInteger]
        rw [hqn, hpval]
        linear_combination -hq
      obtain ⟨k, c, hk, hcpos, hcval⟩ := div_pos_exact (-q).toNat (.Succ p) b' hppos hb' hval
      have hcge : 0 < toInteger c := by
        rw [hcval, hqn]
        omega
      obtain ⟨ppp, hceq, _⟩ := isPos_succ_shape hcpos hcge
      subst hceq
      obtain ⟨d, hd, _, _⟩ := neg_pos (.Succ ppp) hcpos
      refine ⟨k + 1, d, ?_⟩
      simp only [divF, hn, if_true, hp, Option.some_bind, hk]
      exact hd
  | Pred nn =>
    have hnn := wf_pred hb
    have hB : toInteger nn ≤ 0 := isNeg_nonpos nn hnn
    obtain ⟨pp2, hpp2, hpp2pos, hpp2val⟩ := neg_negative nn hnn
    simp only [toInteger] at hq
    cases a with
    | Zero =>
      exact ⟨1, .Zero, by simp [divF, hnn]⟩
    | Pred n =>
      have hn := wf_pred ha
      have hA : toInteger n ≤ 0 := isNeg_nonpos n hn
      simp only [toInteger] at hq
      have hqpos : 0 ≤ q := by
        by_contra h'
        push_neg at h'
        have h1 := mul_nonneg (show (0:Int) ≤ -(toInteger nn - 1) by omega)
          (show (0:Int) ≤ -q by omega)
        rw [neg_mul_neg] at h1
        linarith
      obtain ⟨p, hp, hppos, hpval⟩ := neg_negative n hn
      have hqn : ((q.toNat : Int)) = q := Int.toNat_of_nonneg hqpos
      have hval : toInteger (Numeral.Succ p) = (q.toNat : Int) * (toInteger pp2 + 1) := by
        simp only [toInteger]
        rw [hqn, hpval, hpp2val]
        linear_combination -hq
      obtain ⟨k, c, hk, _, _⟩ := div_pos_exact q.toNat (.Succ p) pp2 hppos hpp2pos hval
      refine ⟨k + 1, c, ?_⟩
      simp only [divF, hn, hnn, if_true, hp, hpp2, Option.some_bind, hppos, hpp2pos, hk]
    | Succ p =>
      have hp := wf_succ ha
      have hA : 0 ≤ toInteger p := isPos_nonneg p hp
      simp only [toInteger] at hq
      have hqneg : q ≤ -1 := by
        by_contra h'
        push_neg at h'
        have h1 := mul_le_mul_of_nonneg_right
          (show toInteger nn - 1 ≤ 0 by omega) (show (0:Int) ≤ q by omega)
        rw [zero_mul] at h1
        linarith
      have hqn : (((-q).toNat : Int)) = -q := Int.toNat_of_nonneg (by omega)
      have hval : toInteger (Numeral.Succ p) = ((-q).toNat : Int) * (toInteger pp2 + 1) := by
        simp only [toInteger]
        rw [hqn, hpp2val]
        linear_combination hq
      obtain ⟨k, c, hk, hcpos, hcval⟩ := div_pos_exact (-q).toNat (.Succ p) pp2 hp hpp2pos hval
      have hcge : 0 < toInteger c := by
        rw [hcval, hqn]
        omega
      obtain ⟨ppp, hceq, _⟩ := isPos_succ_shape hcpos hcge
      subst hceq
      obtain ⟨d, hd, _, _⟩ := neg_pos (.Succ ppp) hcpos
      refine ⟨k + 1, d, ?_⟩
      simp only [divF, hnn, if_true, hpp2, Option.some_bind, hk]
      exact hd

/-! ### Non-termination of division on non-exact inputs

Dividing 1 by 2 cycles between the resolution goals `Div<Succ<Zero>, P2>` and
`Div<Pred<Zero>, P2>`; dividing by 3 cycles with period four.  At every finite
resolution depth the result is `none`. -/

theorem divF_one_by_two_none : ∀ k,
    divF k (Numeral.Succ .Zero) (Numeral.Succ (.Succ .Zero)) = none ∧
    divF k (Numeral.Pred .Zero) (Numeral.Succ (.Succ .Zero)) = none := by
  intro k
  induction k with
  | zero => exact ⟨rfl, rfl⟩
  | succ k ih =>
    obtain ⟨ih1, ih2⟩ := ih
    refine ⟨?_, ?_⟩
    · have e : divF (k + 1) (Numeral.Succ .Zero) (Numeral.Succ (.Succ .Zero)) =
          (divF k (Numeral.Pred .Zero) (Numeral.Succ (.Succ .Zero))).map .Succ := rfl
      rw [e, ih2]
      rfl
    · have e : divF (k + 1) (Numeral.Pred .Zero) (Numeral.Succ (.Succ .Zero)) =
          (match divF k (Numeral.Succ .Zero) (Numeral.Succ (.Succ .Zero)) with
            | some (.Succ p) => neg (.Succ p)
            | _ => none) := rfl
      rw [e, ih1]

theorem divF_cycle_by_three_none : ∀ k,
    divF k (Numeral.Succ .Zero) (Numeral.Succ (.Succ (.Succ .Zero))) = none ∧
    divF k (Numeral.Pred (.Pred .Zero)) (Numeral.Succ (.Succ (.Succ .Zero))) = none ∧
    divF k (Numeral.Succ (.Succ .Zero)) (Numeral.Succ (.Succ (.Succ .Zero))) = none ∧
    divF k (Numeral.Pred .Zero) (Numeral.Succ (.Succ (.Succ .Zero))) = none := by
  intro k
  induction k with
  | zero => exact ⟨rfl, rfl, rfl, rfl⟩
  | succ k ih =>
    obtain ⟨ih1, ih2, ih3, ih4⟩ := ih
    refine ⟨?_, ?_, ?_, ?_⟩
    · have e : divF (k + 1) (Numeral.Succ .Zero) (Numeral.Succ (.Succ (.Succ .Zero))) =
          (divF k (Numeral.Pred (.Pred .Zero)) (Numeral.Succ (.Succ (.Succ .Zero)))).map
            .Succ := rfl
      rw [e, ih2]
      rfl
    · have e : divF (k + 1) (Numeral.Pred (.Pred .Zero))
            (Numeral.Succ (.Succ (.Succ .Zero))) =
          (match divF k (Numeral.Succ (.Succ .Zero)) (Numeral.Succ (.Succ (.Succ .Zero))) with
            | some (.Succ p) => neg (.Succ p)
            | _ => none) := rfl
      rw [e, ih3]
    · have e : divF (k + 1) (Numeral.Succ (.Succ .Zero))
            (Numeral.Succ (.Succ (.Succ .Zero))) =
          (divF k (Numeral.Pred .Zero) (Numeral.Succ (.Succ (.Succ .Zero)))).map .Succ := rfl
      rw [e, ih4]
      rfl
    · have e : divF (k + 1) (Numeral.Pred .Zero) (Numeral.Succ (.Succ (.Succ .Zero))) =
          (match divF k (Numeral.Succ .Zero) (Numeral.Succ (.Succ (.Succ .Zero))) with
            | some (.Succ p) => neg (.Succ p)
            | _ => none) := rfl
      rw [e, ih1]

theorem divF_four_by_three_none : ∀ k, divF k P4 P3 = none := by
  intro k
  cases k with
  | zero => rfl
  | succ k =>
    have e : divF (k + 1) P4 P3 =
        (divF k (Numeral.Succ .Zero) (Numeral.Succ (.Succ (.Succ .Zero)))).map .Succ := rfl
    rw [e, (divF_cycle_by_three_none k).1]
    rfl

example : add P2 P3 = some P5 := by decide

/-! ### Claim theorems -/

/-- C1 (counterexample): the dividend 4 and divisor 3 are well formed and the
divisor is nonzero, yet `Div<P4,P3>` never resolves: the claim that division
is defined for every nonzero divisor (with 4 ÷ 3 = 1) is false on the code. -/
theorem div_four_by_three_not_defined :
    WF P4 ∧ WF P3 ∧ toInteger P3 ≠ 0 ∧ ¬ DivDefined P4 P3 := by
  refine ⟨by decide, by decide, by decide, ?_⟩
  rintro ⟨k, c, h⟩
  rw [divF_four_by_three_none k] at h
  exact absurd h (by simp)

/-- C1 (amended): for well-formed operands with a nonzero divisor that divides
the dividend exactly, division is defined and returns the truncate-toward-zero
(here: exact) integer quotient. -/
theorem div_exact_trunc_toward_zero :
    ∀ a b, WF a → WF b → toInteger b ≠ 0 → toInteger b ∣ toInteger a →
      ∃ k c, divF k a b = some c ∧ WF c ∧
        toInteger c = Int.tdiv (toInteger a) (toInteger b) := by
  intro a b ha hb hbne hdvd
  obtain ⟨k, c, hk, hcwf, hval⟩ := div_exact a b ha hb hbne hdvd
  refine ⟨k, c, hk, hcwf, ?_⟩
  rw [← hval, Int.mul_tdiv_cancel _ hbne]

/-- C1 witness: −4 ÷ 2 resolves to the truncated quotient −2. -/
theorem div_exact_trunc_toward_zero_witness :
    ∃ k c, divF k N4 P2 = some c ∧ WF c ∧
      toInteger c = Int.tdiv (toInteger N4) (toInteger P2) :=
  div_exact_trunc_toward_zero N4 P2 (by decide) (by decide) (by decide) (by decide)

/-- C2 (counterexample): 1 and 2 are well formed and 2 is nonzero, yet the
resolution of `Div<P1,P2>` never terminates; so "Divide with nonzero divisor
terminates for all well-formed inputs" is false on the code. -/
theorem div_one_by_two_not_defined :
    WF P1 ∧ WF P2 ∧ toInteger P2 ≠ 0 ∧ ¬ DivDefined P1 P2 := by
  refine ⟨by decide, by decide, by decide, ?_⟩
  rintro ⟨k, c, h⟩
  have h' : divF k (Numeral.Succ .Zero) (Numeral.Succ (.Succ .Zero)) = some c := h
  rw [(divF_one_by_two_none k).1] at h'
  exact absurd h' (by simp)

/-- C2 (amended): every operation is defined (the recursion bottoms out) on all
well-formed inputs — with Halve restricted to even values and Divide to a
nonzero divisor that divides the dividend exactly. -/
theorem operations_terminate_on_wf :
    (∀ a, WF a → (neg a).isSome ∧ (incr a).isSome ∧ (decr a).isSome) ∧
    (∀ a b, WF a → WF b → (add a b).isSome ∧ (sub a b).isSome ∧ (mul a b).isSome) ∧
    (∀ a, WF a → 2 ∣ toInteger a → (halve a).isSome) ∧
    (∀ a b, WF a → WF b → toInteger b ≠ 0 → toInteger b ∣ toInteger a →
      DivDefined a b) := by
  refine ⟨?_, ?_, ?_, ?_⟩
  · intro a ha
    obtain ⟨m, hm, _, _⟩ := neg_wf ha
    obtain ⟨m2, hm2⟩ := incr_defined ha
    obtain ⟨m3, hm3⟩ := decr_defined ha
    exact ⟨by simp [hm], by simp [hm2], by simp [hm3]⟩
  · intro a b ha hb
    obtain ⟨c1, h1, _, _⟩ := add_wf a b ha hb
    obtain ⟨c2, h2, _, _⟩ := sub_wf a b ha hb
    obtain ⟨c3, h3, _, _⟩ := mul_wf a b ha hb
    exact ⟨by simp [h1], by simp [h2], by simp [h3]⟩
  · intro a ha h2
    obtain ⟨m, hm, _, _⟩ := halve_even a ha h2
    simp [hm]
  · intro a b ha hb hbne hdvd
    obtain ⟨k, c, hk, _, _⟩ := div_exact a b ha hb hbne hdvd
    exact ⟨k, c, hk⟩

/-- C2 witness: the operations resolve on concrete well-formed operands. -/
theorem operations_terminate_on_wf_witness :
    ((neg P3).isSome ∧ (incr P3).isSome ∧ (decr P3).isSome) ∧
    ((add N2 P5).isSome ∧ (sub N2 P5).isSome ∧ (mul N2 P5).isSome) ∧
    (halve P4).isSome ∧ DivDefined N4 N2 :=
  ⟨operations_terminate_on_wf.1 P3 (by decide),
   operations_terminate_on_wf.2.1 N2 P5 (by decide) (by decide),
   ⟨operations_terminate_on_wf.2.2.1 P4 (by decide) (by decide),
    operations_terminate_on_wf.2.2.2 N4 N2 (by decide) (by decide) (by decide)
      (by decide)⟩⟩

/-- C3: exact division by a nonzero divisor is defined and yields the exact
integer quotient, while the non-exact division 1 ÷ 2 never reaches a base
case: `Div<P1,P2>` resolves at no finite depth. -/
theorem div_exact_defined_nonexact_diverges :
    (∀ a b, WF a → WF b → toInteger b ≠ 0 → toInteger b ∣ toInteger a →
      ∃ k c, divF k a b = some c ∧ toInteger c = toInteger a / toInteger b) ∧
    ¬ DivDefined (Numeral.Succ .Zero) (Numeral.Succ (.Succ .Zero)) := by
  constructor
  · intro a b ha hb hbne hdvd
    obtain ⟨k, c, hk, _, hval⟩ := div_exact a b ha hb hbne hdvd
    refine ⟨k, c, hk, ?_⟩
    rw [← hval, Int.mul_ediv_cancel _ hbne]
  · rintro ⟨k, c, h⟩
    rw [(divF_one_by_two_none k).1] at h
    exact absurd h (by simp)

/-- C3 witness: −4 ÷ −2 resolves to the exact quotient 2. -/
theorem div_exact_defined_nonexact_diverges_witness :
    ∃ k c, divF k N4 N2 = some c ∧ toInteger c = toInteger N4 / toInteger N2 :=
  div_exact_defined_nonexact_diverges.1 N4 N2 (by decide) (by decide) (by decide)
    (by decide)

/-- C4: division by `Zero` has no defined case for any dividend whatsoever:
no impl of `Div` has divisor `Zero`, so resolution fails at every depth. -/
theorem div_by_zero_no_case :
    ∀ a : Numeral, (∀ k, divF k a .Zero = none) ∧ ¬ DivDefined a .Zero := by
  intro a
  refine ⟨fun k => divF_zero_divisor k a, ?_⟩
  rintro ⟨k, c, h⟩
  rw [divF_zero_divisor k a] at h
  exact absurd h (by simp)

/-- C5: every operation maps well-formed operands to well-formed results —
pure `Succ` chains or pure `Pred` chains, never mixed. -/
theorem operations_preserve_wf :
    (∀ a b, WF a → neg a = some b → WF b) ∧
    (∀ a b, WF a → incr a = some b → WF b) ∧
    (∀ a b, WF a → decr a = some b → WF b) ∧
    (∀ a b c, WF a → WF b → add a b = some c → WF c) ∧
    (∀ a b c, WF a → WF b → sub a b = some c → WF c) ∧
    (∀ a b, WF a → halve a = some b → WF b) ∧
    (∀ a b c, WF a → WF b → mul a b = some c → WF c) ∧
    (∀ k a b c, WF a → WF b → divF k a b = some c → WF c) :=
  ⟨fun a b _ h => (neg_some a b h).1,
   fun a b _ h => (incr_some a b h).1,
   fun a b _ h => (decr_some a b h).1,
   fun a b c _ hb => fun hc => add_some_wf a b c hc hb,
   fun a b c _ _ h => (sub_some a b c h).1,
   fun a b _ h => (halve_some a b h).1,
   fun a b c _ _ h => (mul_some a b c h).1,
   fun k a b c ha hb h => (divF_some k a b c ha hb h).1⟩

/-- C5 witness: well-formedness preservation at concrete inputs. -/
theorem operations_preserve_wf_witness : WF N2 ∧ WF P5 ∧ WF P2 :=
  ⟨operations_preserve_wf.1 P2 N2 (by decide) (by decide),
   operations_preserve_wf.2.2.2.1 P2 P3 P5 (by decide) (by decide) (by decide),
   operations_preserve_wf.2.2.2.2.2.2.2 5 P4 P2 P2 (by decide) (by decide)
     (by decide)⟩

/-- C6: addition computes the integer sum on well-formed operands and is
commutative and associative under `toInteger`. -/
theorem add_correct_comm_assoc :
    (∀ a b, WF a → WF b →
      ∃ c, add a b = some c ∧ toInteger c = toInteger a + toInteger b) ∧
    (∀ a b, WF a → WF b →
      ∃ c d, add a b = some c ∧ add b a = some d ∧ toInteger c = toInteger d) ∧
    (∀ a b c, WF a → WF b → WF c →
      ∃ x y r s, add a b = some x ∧ add b c = some y ∧ add x c = some r ∧
        add a y = some s ∧ toInteger r = toInteger s) := by
  refine ⟨?_, ?_, ?_⟩
  · intro a b ha hb
    obtain ⟨c, hc, _, hval⟩ := add_wf a b ha hb
    exact ⟨c, hc, hval⟩
  · intro a b ha hb
    obtain ⟨c, hc, _, hcval⟩ := add_wf a b ha hb
    obtain ⟨d, hd, _, hdval⟩ := add_wf b a hb ha
    exact ⟨c, d, hc, hd, by omega⟩
  · intro a b c ha hb hc
    obtain ⟨x, hx, hxwf, hxval⟩ := add_wf a b ha hb
    obtain ⟨y, hy, hywf, hyval⟩ := add_wf b c hb hc
    obtain ⟨r, hr, _, hrval⟩ := add_wf x c hxwf hc
    obtain ⟨s, hs, _, hsval⟩ := add_wf a y ha hywf
    exact ⟨x, y, r, s, hx, hy, hr, hs, by omega⟩

/-- C6 witness: 2 + 3 = 5, commutativity at (2,−3), associativity at (1,−2,3). -/
theorem add_correct_comm_assoc_witness :
    (∃ c, add P2 P3 = some c ∧ toInteger c = toInteger P2 + toInteger P3) ∧
    (∃ c d, add P2 N3 = some c ∧ add N3 P2 = some d ∧ toInteger c = toInteger d) ∧
    (∃ x y r s, add P1 N2 = some x ∧ add N2 P3 = some y ∧ add x P3 = some r ∧
      add P1 y = some s ∧ toInteger r = toInteger s) :=
  ⟨add_correct_comm_assoc.1 P2 P3 (by decide) (by decide),
   add_correct_comm_assoc.2.1 P2 N3 (by decide) (by decide),
   add_correct_comm_assoc.2.2 P1 N2 P3 (by decide) (by decide) (by decide)⟩

/-- C7: multiplication computes the integer product on well-formed operands,
with the base and recursive equations of the `Mul` impls. -/
theorem mul_correct_and_equations :
    (∀ a b, WF a → WF b →
      ∃ c, mul a b = some c ∧ toInteger c = toInteger a * toInteger b) ∧
    (∀ b, mul .Zero b = some .Zero) ∧
    (∀ a b, isPos a = true →
      mul (.Succ a) b = (mul a b).bind fun c => add b c) ∧
    (∀ a b, isNeg a = true →
      mul (.Pred a) b = (mul a b).bind fun c => (neg b).bind fun nb => add nb c) := by
  refine ⟨?_, fun b => rfl, ?_, ?_⟩
  · intro a b ha hb
    obtain ⟨c, hc, _, hval⟩ := mul_wf a b ha hb
    exact ⟨c, hc, hval⟩
  · intro a b h
    simp [mul, h]
  · intro a b h
    simp [mul, h]

/-- C7 witness: −2 × 2 = −4 and the three defining equations at concrete inputs. -/
theorem mul_correct_and_equations_witness :
    (∃ c, mul N2 P2 = some c ∧ toInteger c = toInteger N2 * toInteger P2) ∧
    mul .Zero P3 = some .Zero ∧
    mul (.Succ P1) P3 = ((mul P1 P3).bind fun c => add P3 c) ∧
    mul (.Pred N1) P3 = ((mul N1 P3).bind fun c => (neg P3).bind fun nb => add nb c) :=
  ⟨mul_correct_and_equations.1 N2 P2 (by decide) (by decide),
   mul_correct_and_equations.2.1 P3,
   mul_correct_and_equations.2.2.1 P1 P3 (by decide),
   mul_correct_and_equations.2.2.2 N1 P3 (by decide)⟩

/-- C8: halving is defined exactly on the even well-formed numerals of either
sign, where it returns the exact half; on odd values no case matches. -/
theorem halve_even_exact_odd_undefined :
    ∀ x, WF x →
      (2 ∣ toInteger x → ∃ y, halve x = some y ∧ 2 * toInteger y = toInteger x ∧
        toInteger y = toInteger x / 2) ∧
      ((¬ 2 ∣ toInteger x) → halve x = none) := by
  intro x hx
  refine ⟨?_, fun h => halve_odd x hx h⟩
  intro h
  obtain ⟨y, hy, _, hval⟩ := halve_even x hx h
  refine ⟨y, hy, hval, ?_⟩
  rw [← hval, Int.mul_ediv_cancel_left (toInteger y) (by norm_num)]

/-- C8 witness: Halve(−4) = −2 and Halve(3) has no matching case. -/
theorem halve_even_exact_odd_undefined_witness :
    (∃ y, halve N4 = some y ∧ 2 * toInteger y = toInteger N4 ∧
      toInteger y = toInteger N4 / 2) ∧
    halve P3 = none :=
  ⟨(halve_even_exact_odd_undefined N4 (by decide)).1 (by decide),
   (halve_even_exact_odd_undefined P3 (by decide)).2 (by decide)⟩

/-- C9: increment and decrement adjust the integer value by one on all
well-formed numerals, and the cancellation impls return the inner numeral
directly instead of building a mixed chain. -/
theorem incr_decr_correct_with_cancellation :
    (∀ x, WF x → ∃ y, incr x = some y ∧ toInteger y = toInteger x + 1) ∧
    (∀ x, WF x → ∃ y, decr x = some y ∧ toInteger y = toInteger x - 1) ∧
    (∀ a, isNeg a = true → incr (.Pred a) = some a) ∧
    (∀ a, isPos a = true → decr (.Succ a) = some a) := by
  refine ⟨?_, ?_, ?_, ?_⟩
  · intro x hx
    obtain ⟨y, hy⟩ := incr_defined hx
    exact ⟨y, hy, (incr_some x y hy).2⟩
  · intro x hx
    obtain ⟨y, hy⟩ := decr_defined hx
    exact ⟨y, hy, (decr_some x y hy).2⟩
  · intro a h
    simp [incr, h]
  · intro a h
    simp [decr, h]

/-- C9 witness: increment and decrement at concrete inputs, including both
cancellation cases. -/
theorem incr_decr_correct_with_cancellation_witness :
    (∃ y, incr N2 = some y ∧ toInteger y = toInteger N2 + 1) ∧
    (∃ y, decr P2 = some y ∧ toInteger y = toInteger P2 - 1) ∧
    incr (.Pred N1) = some N1 ∧ decr (.Succ P1) = some P1 :=
  ⟨incr_decr_correct_with_cancellation.1 N2 (by decide),
   incr_decr_correct_with_cancellation.2.1 P2 (by decide),
   incr_decr_correct_with_cancellation.2.2.1 N1 (by decide),
   incr_decr_correct_with_cancellation.2.2.2 P1 (by decide)⟩

/-- C10: subtraction is exactly `Add(a, Negate(b))` (definitionally, with no
recursion of its own) and computes the integer difference on well-formed
operands. -/
theorem sub_compositional_and_correct :
    (∀ a b, sub a b = (neg b).bind fun c => add a c) ∧
    (∀ a b, WF a → WF b →
      ∃ c, sub a b = some c ∧ toInteger c = toInteger a - toInteger b) := by
  refine ⟨fun a b => rfl, ?_⟩
  intro a b ha hb
  obtain ⟨c, hc, _, hval⟩ := sub_wf a b ha hb
  exact ⟨c, hc, hval⟩

/-- C10 witness: 2 − 3 = −1 via the compositional definition. -/
theorem sub_compositional_and_correct_witness :
    sub P2 P3 = ((neg P3).bind fun c => add P2 c) ∧
    (∃ c, sub P2 P3 = some c ∧ toInteger c = toInteger P2 - toInteger P3) :=
  ⟨sub_compositional_and_correct.1 P2 P3,
   sub_compositional_and_correct.2 P2 P3 (by decide) (by decide)⟩

example : sub P2 P3 = some N1 := by decide
example : halve P4 = some P2 := by decide
example : divF 5 P4 P2 = some P2 := by decide
example : divF 10 N4 P2 = some N2 := by decide
example : divF 10 P4 N2 = some N2 := by decide
example : divF 10 N4 N1 = some P4 := by decide
example : divF 20 P4 P3 = none := by decide
example : mul P2 N2 = some N4 := by decide

end Tylar
